import Mathlib

/-!
Verification of the responsible-RAG repository core against its
natural-language specification.

The development shallowly embeds the Python sources:
  rag.py              (split_into_chunks, load_corpus, embed_texts,
                       cosine_similarity, SimpleRAG.retrieve)
  answer_pipeline.py  (run_pipeline and its revision gate)
  app_new.py          (parse_critic_json, run_query responsible branch)

Strings are modelled as `List Char`; Python floats as `ℚ` (with the
divergences from IEEE arithmetic noted where they matter); the external
OpenAI capabilities (chat and embeddings) as function parameters, since the
code treats them as opaque request/response services.
-/

set_option autoImplicit false

/-! ### Python string primitives -/

/-- Characters treated as whitespace by Python's `str.split()` and
`str.strip()` (ASCII subset; the corpus code only meets ASCII text). -/
def pyIsSpace (c : Char) : Bool :=
  c = ' ' || c = '\t' || c = '\n' || c = '\r' || c = '\x0b' || c = '\x0c'

/-- Accumulator worker for `pySplitW`; `acc` holds the current word reversed. -/
def splitWAux : List Char → List Char → List (List Char)
  | [], acc => if acc = [] then [] else [acc.reverse]
  | c :: t, acc =>
    if pyIsSpace c then
      if acc = [] then splitWAux t [] else acc.reverse :: splitWAux t []
    else splitWAux t (c :: acc)

/-- Models Python `s.split()` with no argument: split on runs of whitespace,
discarding empty words. -/
def pySplitW (s : List Char) : List (List Char) := splitWAux s []

/-- Drop trailing Python whitespace. -/
def dropTrail (s : List Char) : List Char := (s.reverse.dropWhile pyIsSpace).reverse

/-- Models Python `s.strip()`: remove leading and trailing whitespace. -/
def pyStrip (s : List Char) : List Char := dropTrail (s.dropWhile pyIsSpace)

/-- Models Python `sep.join(ws)`. -/
def pyJoin (sep : List Char) : List (List Char) → List Char
  | [] => []
  | [w] => w
  | w :: ws => w ++ sep ++ pyJoin sep ws

/-- Models Python `pat in s` (substring containment). -/
def pyContains (pat : List Char) : List Char → Bool
  | [] => pat.isEmpty
  | c :: t => pat.isPrefixOf (c :: t) || pyContains pat t

/-- Models Python `s.upper()` on the ASCII texts the pipeline handles. -/
def pyUpper (s : List Char) : List Char := s.map Char.toUpper

/-- Accumulator worker for `pySplitParas`; splits at each leftmost,
non-overlapping occurrence of the two-character separator `"\n\n"`,
exactly as Python `s.split("\n\n")` does. -/
def splitParasAux : List Char → List Char → List (List Char)
  | [], acc => [acc.reverse]
  | '\n' :: '\n' :: t, acc => acc.reverse :: splitParasAux t []
  | c :: t, acc => splitParasAux t (c :: acc)

/-- Models Python `s.split("\n\n")` as used by `load_corpus`. -/
def pySplitParas (s : List Char) : List (List Char) := splitParasAux s []

/-- Models Python `s.find(c)` for a single character: index of the first
occurrence, or `-1`. -/
def pyFindChar (c : Char) (s : List Char) : Int :=
  match s.findIdx? (fun d => d = c) with
  | some i => (i : Int)
  | none => -1

/-- Models Python `s.rfind(c)` for a single character: index of the last
occurrence, or `-1`. -/
def pyRfindChar (c : Char) (s : List Char) : Int :=
  match s.reverse.findIdx? (fun d => d = c) with
  | some i => (s.length : Int) - 1 - (i : Int)
  | none => -1

/-- Models the Python slice `s[a : b + 1]` for indices `0 ≤ a ≤ b`, the only
case in which `parse_critic_json` uses it. -/
def pySliceIncl (s : List Char) (a b : Int) : List Char :=
  (s.drop a.toNat).take (b.toNat + 1 - a.toNat)

/-- Models Python `name.endswith(".txt")`, the effect of the `*.txt` glob
pattern in `load_corpus`. -/
def isTxtName (name : List Char) : Bool := List.isSuffixOf ".txt".data name

/-- Codepoint-lexicographic `≤` on strings: the order Python's `sorted()`
uses on the globbed file paths (a shared directory prefix preserves the
relative order of the file names). -/
def lexLe : List Char → List Char → Bool
  | [], _ => true
  | _ :: _, [] => false
  | x :: xs, y :: ys => if x < y then true else if y < x then false else lexLe xs ys

/-- Insert one directory entry into a list sorted by `lexLe` on the name. -/
def insertSorted (x : List Char × List Char) :
    List (List Char × List Char) → List (List Char × List Char)
  | [] => [x]
  | y :: ys => if lexLe x.1 y.1 then x :: y :: ys else y :: insertSorted x ys

/-- Models Python `sorted()` on directory entries keyed by file name.  The
keys in a directory are pairwise distinct, so any comparison sort realises
the same list. -/
def sortByName (l : List (List Char × List Char)) : List (List Char × List Char) :=
  l.foldr insertSorted []

/-- Decimal digit character, `str(d)` for `0 ≤ d ≤ 9`. -/
def digitChar (d : Nat) : Char := Char.ofNat (48 + d)

/-- Fuel-driven decimal digits of `n`, least significant first; faithful for
any fuel `≥ n` (the quotient chain `n, n/10, …` has at most `n` steps). -/
def digitsRevAux : Nat → Nat → List Char
  | _, 0 => []
  | 0, _ + 1 => []
  | fuel + 1, n + 1 => digitChar ((n + 1) % 10) :: digitsRevAux fuel ((n + 1) / 10)

/-- Models Python `str(n)` for a natural number `n` (the chunk counter). -/
def natDigits (n : Nat) : List Char :=
  if n = 0 then ['0'] else (digitsRevAux n n).reverse

/-- Numeric value of a least-significant-first digit string; the decoding
side of `digitsRevAux`, used to prove `natDigits` injective. -/
def valRev : List Char → Nat
  | [] => 0
  | c :: cs => (c.toNat - 48) + 10 * valRev cs

/-! ### rag.py: chunking -/

/-- One chunk of the word window: Python
`" ".join(chunk_words).strip()` from `split_into_chunks`. -/
def chunkJoin (ws : List (List Char)) : List Char := pyStrip (pyJoin [' '] ws)

/-- The `while start < len(words)` loop of `split_into_chunks`, rephrased on
the suffix `words[start:]`: the guard `start < len(words)` is the suffix
being nonempty, the emitted chunk is `words[start : start + maxW]`, and
`start = end - overlap` drops `step = maxW - overlap` more words.  The loop
terminates only because `step > 0`, which the definition carries as a
hypothesis. -/
def chunkLoop (maxW step : Nat) (hstep : 0 < step) : List (List Char) → List (List Char)
  | [] => []
  | w :: ws => chunkJoin ((w :: ws).take maxW) :: chunkLoop maxW step hstep ((w :: ws).drop step)
termination_by l => l.length
decreasing_by simp [List.length_drop]; omega

/-- Models `split_into_chunks(text, max_words, overlap)` from rag.py for the
terminating parameter range `overlap < max_words` (the repository always
calls it with the defaults 200 and 40). -/
def split_into_chunks (maxW ov : Nat) (h : ov < maxW) (text : List Char) : List (List Char) :=
  let words := pySplitW text
  if words = [] then []
  else if words.length ≤ maxW then [pyStrip text]
  else chunkLoop maxW (maxW - ov) (by omega) words

/-- The integer sequence of values taken by the loop variable `start` in
`split_into_chunks` (before iteration `n`), for arbitrary parameters:
`start` begins at `0` and each iteration runs `start = start + max_words -
overlap` in Python integer arithmetic. -/
def pyChunkStart (maxW ov : Nat) : Nat → Int
  | 0 => 0
  | n + 1 => pyChunkStart maxW ov n + (maxW : Int) - (ov : Int)

/-! ### rag.py: load_corpus -/

/-- The Python f-string `f"{filename}#{chunk_index}"`. -/
def mkSourceId (name : List Char) (i : Nat) : List Char := name ++ '#' :: natDigits i

/-- Digits of the trailing chunk index of a source id, reversed; reading a
source id backwards up to the `'#'` recovers `str(chunk_index)` because
digits never contain `'#'`. -/
def srcIdxRev (s : List Char) : List Char := s.reverse.takeWhile (fun c => c ≠ '#')

/-- The paragraph list `[p.strip() for p in content.split("\n\n") if p.strip()]`
from `load_corpus`. -/
def load_paragraphs (content : List Char) : List (List Char) :=
  ((pySplitParas content).map pyStrip).filter (fun p => p ≠ [])

/-- All chunks of one document, in order: each paragraph is further split by
`split_into_chunks(para, max_words=200, overlap=40)`. -/
def fileChunks (content : List Char) : List (List Char) :=
  (load_paragraphs content).flatMap (fun para => split_into_chunks 200 40 (by omega) para)

/-- The inner `for chunk in para_chunks` loop of `load_corpus`: skip falsy
(empty) chunks, append the chunk text, append `f"{filename}#{chunk_index}"`,
and increment the global counter.  Returns (texts, sources, new counter). -/
def appendChunks (name : List Char) :
    List (List Char) → Nat → (List (List Char) × List (List Char) × Nat)
  | [], counter => ([], [], counter)
  | c :: cs, counter =>
    if c = [] then appendChunks name cs counter
    else
      let r := appendChunks name cs (counter + 1)
      (c :: r.1, mkSourceId name counter :: r.2.1, r.2.2)

/-- The outer `for filepath in txt_files` loop of `load_corpus`, threading
the single global chunk counter across documents. -/
def loadLoop : List (List Char × List Char) → Nat → (List (List Char) × List (List Char))
  | [], _ => ([], [])
  | (name, content) :: rest, counter =>
    let fc := appendChunks name (fileChunks content) counter
    let r := loadLoop rest fc.2.2
    (fc.1 ++ r.1, fc.2.1 ++ r.2)

/-- The two fatal errors of `load_corpus`: `ValueError` when the corpus path
is not a directory, `FileNotFoundError` when the directory holds no `.txt`
file (the spec's invalid-corpus-path and empty-corpus errors). -/
inductive CorpusError
  | invalidPath
  | emptyCorpus
deriving DecidableEq

/-- Models `load_corpus(path)` from rag.py.  The filesystem is abstracted to
its observable content: `none` for a path that is not a directory, `some
listing` for a directory given as (file name, file content) pairs in the
arbitrary order `glob` enumerates them; `sorted(glob(path + "/*.txt"))` is
the name-sorted `.txt` sublist. -/
def load_corpus (dir : Option (List (List Char × List Char))) :
    Except CorpusError (List (List Char) × List (List Char)) :=
  match dir with
  | none => .error .invalidPath
  | some listing =>
    let files := sortByName (listing.filter (fun f => isTxtName f.1))
    if files = [] then .error .emptyCorpus
    else .ok (loadLoop files 0)

/-! ### rag.py: embed_texts -/

/-- The `for start in range(0, len(texts), batch_size)` loop of
`embed_texts`: process the slice `texts[start : start + batch_size]` per
request and concatenate the returned vectors.  The embedding capability is
a parameter `f` applied to each text of a batch (one vector per input, in
order, as the embeddings API returns).  `batch_size > 0` is required for the
loop to advance, as in Python where `range` with step 0 raises. -/
def embedLoop {α β : Type} (f : α → β) (bs : Nat) (hbs : 0 < bs) : List α → List β
  | [] => []
  | t :: ts => ((t :: ts).take bs).map f ++ embedLoop f bs hbs ((t :: ts).drop bs)
termination_by l => l.length
decreasing_by simp [List.length_drop]; omega

/-- The `ValueError` raised by `embed_texts` on an empty input list. -/
inductive EmbedError
  | emptyInput
deriving DecidableEq

/-- Models `embed_texts(texts, batch_size)` from rag.py over an abstract
pure embedding capability `f`. -/
def embed_texts {α β : Type} (f : α → β) (bs : Nat) (hbs : 0 < bs)
    (texts : List α) : Except EmbedError (List β) :=
  if texts.isEmpty then .error .emptyInput else .ok (embedLoop f bs hbs texts)

/-! ### rag.py: cosine similarity and retrieve -/

/-- Sum of squares of a vector, the argument of the norm's square root. -/
def sumSq (v : List ℚ) : ℚ := (v.map (fun x => x * x)).sum

/-- Models `np.linalg.norm(v)` over an abstract square-root function
(exact square roots of rationals need not be rational; only `sqrt 0 = 0`
matters to the zero-norm claims). -/
def pyNorm (sqrt : ℚ → ℚ) (v : List ℚ) : ℚ := sqrt (sumSq v)

/-- Componentwise division of a vector by a scalar, `v / s` in numpy.  In
numpy, dividing zero by a zero norm produces NaN (an invalid-value warning,
not an exception); the exact model's total division returns 0 there.  Both
disagree with the value −1, which is all the zero-norm claims need. -/
def vecDiv (v : List ℚ) (s : ℚ) : List ℚ := v.map (fun x => x / s)

/-- Dot product, `d @ q`. -/
def dotQ (a b : List ℚ) : ℚ := (List.zipWith (fun x y => x * y) a b).sum

/-- Models `cosine_similarity(query_vec, doc_vecs)` from rag.py exactly as
written: normalize the query by its norm, normalize every document row by
its norm, and take dot products.  There is no special case for a zero
norm. -/
def cosine_similarity (sqrt : ℚ → ℚ) (q : List ℚ) (docs : List (List ℚ)) : List ℚ :=
  let qh := vecDiv q (pyNorm sqrt q)
  docs.map (fun d => dotQ (vecDiv d (pyNorm sqrt d)) qh)

/-- One retrieval hit: the dict `{"text": …, "similarity": …, "source": …}`
built by `SimpleRAG.retrieve`. -/
structure RetrievedDoc where
  text : List Char
  similarity : ℚ
  source : List Char
deriving DecidableEq

/-- Contract of `np.argsort(-sims)`: a permutation of the positions
`0, …, n−1` along which the similarities are non-increasing.  numpy's
default kind is quicksort, which is documented as unstable, so the order of
exact ties inside the permutation is NOT further constrained: any `perm`
satisfying this predicate is a possible return value. -/
def argsortSpec (keys : List ℚ) (perm : List Nat) : Prop :=
  List.Perm perm (List.range keys.length) ∧
  List.Pairwise (fun i j => keys.getD j 0 ≤ keys.getD i 0) perm

/-- Models the tail of `SimpleRAG.retrieve` after the similarity vector is
in hand: `top_k_indices = np.argsort(-sims)[:k]` followed by the
result-building loop.  `perm` is the argsort output; `texts` and `sources`
are the index-aligned chunk and source-id lists of the built index. -/
def retrieveModel (texts sources : List (List Char)) (sims : List ℚ)
    (perm : List Nat) (k : Nat) : List RetrievedDoc :=
  (perm.take k).map (fun i => ⟨texts.getD i [], sims.getD i 0, sources.getD i []⟩)

/-! ### answer_pipeline.py -/

/-- The pipeline stages, used to record the sequence of stage invocations
(`run_pipeline` calls retrieval, planner, draft and critic once each, and
the revision stage only inside the `needs_revision` branch). -/
inductive Stage
  | retrieveS
  | planS
  | draftS
  | criticS
  | reviseS
deriving DecidableEq

/-- The generation and retrieval capabilities `run_pipeline` depends on,
abstracted as pure functions of exactly the arguments the Python code
passes (`SimpleRAG.retrieve`, `generate_plan`, `generate_draft_answer`,
`evaluate_answer`, `revise_answer`). -/
structure PipelineDeps where
  retrieve : List Char → Nat → List RetrievedDoc
  generate_plan : List Char → List (List Char) → List Char
  generate_draft_answer : List Char → List (List Char) → List Char → List Char
  evaluate_answer : List Char → List (List Char) → List Char → List Char
  revise_answer : List Char → List (List Char) → List Char → List Char → List Char

/-- The dict returned by `run_pipeline`, plus the trace of stage calls made
while producing it. -/
structure PipelineRun where
  query : List Char
  retrieved_docs : List (List Char)
  sources : List (List Char)
  plan : List Char
  draft_answer : List Char
  critic_feedback : List Char
  final_answer : List Char
  trace : List Stage

/-- The literal revision marker of answer_pipeline.py. -/
def revMarker : List Char := "VERDICT: REVISE".data

/-- The revision gate: `"VERDICT: REVISE" in critic_feedback.upper()`. -/
def needs_revision (critic_feedback : List Char) : Bool :=
  pyContains revMarker (pyUpper critic_feedback)

/-- Models `run_pipeline(query, k)` from answer_pipeline.py: retrieve,
plan, draft, critique, then revise exactly when the marker fires. -/
def run_pipeline (deps : PipelineDeps) (query : List Char) (k : Nat) : PipelineRun :=
  let retrieved := deps.retrieve query k
  let retrieved_texts := retrieved.map RetrievedDoc.text
  let retrieved_sources := retrieved.map RetrievedDoc.source
  let plan := deps.generate_plan query retrieved_texts
  let draft_answer := deps.generate_draft_answer query retrieved_texts plan
  let critic_feedback := deps.evaluate_answer query retrieved_texts draft_answer
  let needs := needs_revision critic_feedback
  let final_answer :=
    if needs then deps.revise_answer query retrieved_texts draft_answer critic_feedback
    else draft_answer
  { query := query
    retrieved_docs := retrieved_texts
    sources := retrieved_sources
    plan := plan
    draft_answer := draft_answer
    critic_feedback := critic_feedback
    final_answer := final_answer
    trace := [.retrieveS, .planS, .draftS, .criticS] ++ (if needs then [.reviseS] else []) }

/-- Number of Revision-stage invocations recorded in a run. -/
def reviseCalls (r : PipelineRun) : Nat := r.trace.count Stage.reviseS

/-! ### app_new.py: parse_critic_json and the responsible branch -/

/-- Models `parse_critic_json(text)` from app_new.py over an abstract JSON
parser `loads` (`some` for a successful `json.loads`, `none` when it would
raise — every exception is caught) and the literal `{}` fallback `emptyJ`:
return `{}` on falsy input; try the whole string; then try the substring
from the first `'{'` to the last `'}'` when `start != -1 and end != -1 and
end > start`; otherwise return `{}`. -/
def parse_critic_json {J : Type} (loads : List Char → Option J) (emptyJ : J)
    (text : List Char) : J :=
  if text = [] then emptyJ
  else
    match loads text with
    | some v => v
    | none =>
      let s := pyFindChar '{' text
      let e := pyRfindChar '}' text
      if s ≠ -1 ∧ e ≠ -1 ∧ s < e then
        match loads (pySliceIncl text s e) with
        | some v => v
        | none => emptyJ
      else emptyJ

/-- Capabilities of the responsible branch of `run_query` in app_new.py:
retrieval, planner, the draft chat call, the critic, JSON encode/decode,
Python truthiness of a parsed value, and the safe-rewrite chat call. -/
structure AppDeps (J : Type) where
  retrieve : List Char → List RetrievedDoc
  generate_plan : List Char → List (List Char) → List Char
  draftGen : List Char → List Char → List (List Char) → List Char
  evaluate_answer : List Char → List (List Char) → List Char → List Char
  loads : List Char → Option J
  dumps : J → List Char
  truthy : J → Bool
  safeRewrite : List Char → List (List Char) → List Char → List Char → List Char

/-- The JSON payload assembled by the responsible branch of `run_query`. -/
structure AppResponse where
  texts : List (List Char)
  plan : List Char
  draft : List Char
  critic_raw : List Char
  critic_json_str : List Char
  safe_answer : List Char
  answer : List Char

/-- Models the `mode == "responsible"` branch of `run_query` in app_new.py:
retrieve, plan, draft, critique, defensively parse the critic output, then
always run the safe rewrite; the response's `answer` is the safe rewrite's
output.  `get_doc_text` on the retrieval dicts yields their `"text"`
field. -/
def run_query_responsible {J : Type} (d : AppDeps J) (emptyJ : J)
    (query : List Char) : AppResponse :=
  let docs := d.retrieve query
  let texts := docs.map RetrievedDoc.text
  let plan := d.generate_plan query texts
  let draft := d.draftGen plan query texts
  let critic_text := d.evaluate_answer query texts draft
  let critic_parsed := parse_critic_json d.loads emptyJ critic_text
  let critic_json_str :=
    if d.truthy critic_parsed then d.dumps critic_parsed else critic_text
  let safe := d.safeRewrite query texts draft critic_json_str
  { texts := texts
    plan := plan
    draft := draft
    critic_raw := critic_text
    critic_json_str := critic_json_str
    safe_answer := safe
    answer := safe }

/-! ### Concrete capability instances used by witnesses -/

/-- Concrete pipeline capabilities whose critic emits a lower-case revision
marker, exercising the case-insensitive gate. -/
def depsW : PipelineDeps :=
  { retrieve := fun _ _ => []
    generate_plan := fun _ _ => []
    generate_draft_answer := fun _ _ _ => ['d']
    evaluate_answer := fun _ _ _ => "verdict: revise".data
    revise_answer := fun _ _ _ _ => ['r'] }

/-- Concrete JSON parser succeeding exactly on the three-character object
text between the braces of the embedded-object witness. -/
def loadsW : List Char → Option Nat :=
  fun s => if s = '{' :: 'x' :: '}' :: [] then some 42 else none

/-! ### General helper lemmas -/

theorem takeWhile_append_stop {α : Type} (p : α → Bool) :
    ∀ (xs : List α) (y : α) (ys : List α), (∀ x ∈ xs, p x = true) → p y = false →
      (xs ++ y :: ys).takeWhile p = xs
  | [], y, ys, _, hy => by simp [List.takeWhile_cons, hy]
  | x :: xs, y, ys, hxs, hy => by
    have hx : p x = true := hxs x (List.mem_cons_self x xs)
    simp only [List.cons_append, List.takeWhile_cons, hx, if_true]
    rw [takeWhile_append_stop p xs y ys (fun a ha => hxs a (List.mem_cons_of_mem x ha)) hy]

theorem findIdx?_append_first {α : Type} (p : α → Bool) :
    ∀ (xs : List α) (y : α) (ys : List α) (i : Nat), (∀ x ∈ xs, p x = false) → p y = true →
      List.findIdx? p (xs ++ y :: ys) i = some (i + xs.length)
  | [], y, ys, i, _, hy => by simp [List.findIdx?_cons, hy]
  | x :: xs, y, ys, i, hxs, hy => by
    have hx : p x = false := hxs x (List.mem_cons_self x xs)
    rw [List.cons_append, List.findIdx?_cons, hx]
    simp only [Bool.false_eq_true, if_false]
    rw [findIdx?_append_first p xs y ys (i + 1) (fun a ha => hxs a (List.mem_cons_of_mem x ha)) hy]
    congr 1
    simp [List.length_cons]
    omega

theorem map_getD_range {α : Type} (l : List α) (d : α) :
    (List.range l.length).map (fun i => l.getD i d) = l := by
  apply List.ext_getElem
  · simp
  · intro i h1 h2
    simp only [List.getElem_map, List.getElem_range]
    exact List.getD_eq_getElem l d h2

/-! ### Decimal digit lemmas (`natDigits` models Python `str(n)`) -/

theorem digitsRevAux_irrel : ∀ (f1 f2 n : Nat), n ≤ f1 → n ≤ f2 →
    digitsRevAux f1 n = digitsRevAux f2 n
  | _, _, 0, _, _ => by simp [digitsRevAux]
  | 0, _, _ + 1, h1, _ => by omega
  | _ + 1, 0, _ + 1, _, h2 => by omega
  | f1 + 1, f2 + 1, n + 1, h1, h2 => by
    have hdiv : (n + 1) / 10 ≤ n := Nat.le_of_lt_succ (Nat.div_lt_self (Nat.succ_pos n) (by omega))
    simp only [digitsRevAux]
    exact congrArg _ (digitsRevAux_irrel f1 f2 ((n + 1) / 10) (by omega) (by omega))

theorem digitChar_toNat : ∀ d, d < 10 → (digitChar d).toNat = 48 + d := by decide

theorem valRev_digitsRevAux : ∀ (fuel n : Nat), n ≤ fuel → valRev (digitsRevAux fuel n) = n
  | _, 0, _ => by simp [digitsRevAux, valRev]
  | 0, n + 1, h => by omega
  | fuel + 1, n + 1, h => by
    have h10 : (n + 1) % 10 < 10 := Nat.mod_lt _ (by omega)
    have hdiv : (n + 1) / 10 ≤ n := Nat.le_of_lt_succ (Nat.div_lt_self (Nat.succ_pos n) (by omega))
    simp only [digitsRevAux, valRev, digitChar_toNat _ h10]
    rw [valRev_digitsRevAux fuel ((n + 1) / 10) (by omega)]
    omega

theorem natDigits_inj : ∀ (m n : Nat), natDigits m = natDigits n → m = n := by
  intro m n h
  unfold natDigits at h
  by_cases hm : m = 0 <;> by_cases hn : n = 0 <;> simp [hm, hn] at h ⊢
  · -- m = 0, n ≠ 0
    exfalso
    have h' : digitsRevAux n n = ['0'] := by
      have := congrArg List.reverse h
      simpa using this.symm
    have := valRev_digitsRevAux n n (Nat.le_refl _)
    rw [h'] at this
    simp [valRev] at this
    exact hn this.symm
  · -- m ≠ 0, n = 0
    exfalso
    have h' : digitsRevAux m m = ['0'] := by
      have := congrArg List.reverse h
      simpa using this
    have := valRev_digitsRevAux m m (Nat.le_refl _)
    rw [h'] at this
    simp [valRev] at this
    exact hm this.symm
  · have h' : digitsRevAux m m = digitsRevAux n n := by
      have := congrArg List.reverse h
      simpa using this
    have hv1 := valRev_digitsRevAux m m (Nat.le_refl _)
    have hv2 := valRev_digitsRevAux n n (Nat.le_refl _)
    rw [h'] at hv1
    omega

theorem digitsRevAux_mem : ∀ (fuel n : Nat) (c : Char), c ∈ digitsRevAux fuel n →
    ∃ d, d < 10 ∧ c = digitChar d
  | _, 0, c, h => by simp [digitsRevAux] at h
  | 0, _ + 1, c, h => by simp [digitsRevAux] at h
  | fuel + 1, n + 1, c, h => by
    simp only [digitsRevAux, List.mem_cons] at h
    rcases h with h | h
    · exact ⟨(n + 1) % 10, Nat.mod_lt _ (by omega), h⟩
    · exact digitsRevAux_mem fuel ((n + 1) / 10) c h

theorem digitChar_ne_hash : ∀ d, d < 10 → digitChar d ≠ '#' := by decide

theorem natDigits_ne_hash (n : Nat) : ∀ c ∈ natDigits n, c ≠ '#' := by
  intro c hc
  unfold natDigits at hc
  by_cases hn : n = 0
  · simp [hn] at hc
    subst hc
    decide
  · simp only [hn, if_false, List.mem_reverse] at hc
    obtain ⟨d, hd, rfl⟩ := digitsRevAux_mem n n c hc
    exact digitChar_ne_hash d hd

/-! ### Claim C1: the revision gate of run_pipeline -/

theorem trace_count_norevise :
    List.count Stage.reviseS [Stage.retrieveS, Stage.planS, Stage.draftS, Stage.criticS] = 0 := by
  decide

theorem trace_count_revise :
    List.count Stage.reviseS
      ([Stage.retrieveS, Stage.planS, Stage.draftS, Stage.criticS] ++ [Stage.reviseS]) = 1 := by
  decide

/-- C1.  In responsible mode, `run_pipeline`'s `final_answer` equals
`draft_answer` and the Revision stage is never invoked if and only if the
literal marker `"VERDICT: REVISE"` (matched case-insensitively, via
`upper()`) is absent from the critic's raw output; when the marker is
present the Revision stage runs exactly once and `final_answer` is its
output.  Quantified over all capabilities (hence all queries, critic
outputs and retrieval results). -/
theorem claim1_revision_gate (deps : PipelineDeps) (query : List Char) (k : Nat) :
    ((run_pipeline deps query k).final_answer = (run_pipeline deps query k).draft_answer ∧
        reviseCalls (run_pipeline deps query k) = 0 ↔
      needs_revision ((run_pipeline deps query k).critic_feedback) = false) ∧
    (needs_revision ((run_pipeline deps query k).critic_feedback) = true →
      reviseCalls (run_pipeline deps query k) = 1 ∧
        (run_pipeline deps query k).final_answer =
          deps.revise_answer query ((run_pipeline deps query k).retrieved_docs)
            ((run_pipeline deps query k).draft_answer)
            ((run_pipeline deps query k).critic_feedback)) := by
  by_cases h :
      needs_revision
        (deps.evaluate_answer query ((deps.retrieve query k).map RetrievedDoc.text)
          (deps.generate_draft_answer query ((deps.retrieve query k).map RetrievedDoc.text)
            (deps.generate_plan query ((deps.retrieve query k).map RetrievedDoc.text)))) = true
  · simp [run_pipeline, reviseCalls, h, trace_count_revise]
  · simp [run_pipeline, reviseCalls, h, trace_count_norevise]

/-- Witness for C1 at concrete capabilities whose critic answers with a
lower-case marker, showing the case-insensitive match fires and the
revision stage runs exactly once. -/
theorem claim1_witness :
    needs_revision ((run_pipeline depsW ['q'] 3).critic_feedback) = true ∧
    reviseCalls (run_pipeline depsW ['q'] 3) = 1 ∧
    (run_pipeline depsW ['q'] 3).final_answer =
      depsW.revise_answer ['q'] ((run_pipeline depsW ['q'] 3).retrieved_docs)
        ((run_pipeline depsW ['q'] 3).draft_answer)
        ((run_pipeline depsW ['q'] 3).critic_feedback) :=
  ⟨by decide, (claim1_revision_gate depsW ['q'] 3).2 (by decide)⟩

/-! ### Claim C3: no zero-norm guard in cosine_similarity -/

theorem sumSq_eq_zero (q : List ℚ) (hq : ∀ x ∈ q, x = 0) : sumSq q = 0 := by
  induction q with
  | nil => simp [sumSq]
  | cons x t ih =>
    have hx : x = 0 := hq x (List.mem_cons_self x t)
    have ht := ih (fun y hy => hq y (List.mem_cons_of_mem x hy))
    simp [sumSq, hx] at ht ⊢
    simpa [sumSq] using ht

theorem dotQ_zero_right (a : List ℚ) : ∀ (b : List ℚ), (∀ y ∈ b, y = 0) → dotQ a b = 0 := by
  induction a with
  | nil => intro b _; simp [dotQ]
  | cons x t ih =>
    intro b hb
    cases b with
    | nil => simp [dotQ]
    | cons y u =>
      have hy : y = 0 := hb y (List.mem_cons_self y u)
      have hu := ih u (fun z hz => hb z (List.mem_cons_of_mem y hz))
      simp [dotQ, hy] at hu ⊢
      simpa [dotQ] using hu

/-- Counterexample to C3 as stated: the similarity the code computes for
the zero query vector `[0]` against the document row `[1]` is not −1.  The
square-root parameter is the identity, which is the exact square root on
every value this instance applies it to (`0` and `1`); in the exact model
the zero-norm division yields 0, while numpy yields NaN — in neither
semantics is the result the claimed theoretical minimum −1. -/
theorem claim3_counterexample :
    cosine_similarity (fun x => x) [(0 : ℚ)] [[1]] ≠ [-1] := by
  simp [cosine_similarity, vecDiv, pyNorm, sumSq, dotQ]

/-- C3 amended.  `cosine_similarity` contains no zero-norm guard: it
normalizes by dividing by the norm unconditionally, so for a zero query
vector every similarity is the zero-division fault value of the arithmetic
(0 in this exact total-division model; NaN, with an invalid-value warning,
in numpy) — never the theoretical minimum −1. -/
theorem claim3_no_zero_guard (sqrt : ℚ → ℚ) (hs : sqrt 0 = 0) (q : List ℚ)
    (hq : ∀ x ∈ q, x = 0) (docs : List (List ℚ)) :
    cosine_similarity sqrt q docs = docs.map (fun _ => 0) := by
  have h1 : pyNorm sqrt q = 0 := by rw [pyNorm, sumSq_eq_zero q hq, hs]
  have h2 : ∀ y ∈ vecDiv q (pyNorm sqrt q), y = 0 := by
    intro y hy
    rw [h1] at hy
    simp [vecDiv] at hy
    obtain ⟨x, _, rfl⟩ := hy
    simp
  unfold cosine_similarity
  apply List.map_congr_left
  intro d _
  exact dotQ_zero_right _ _ h2

/-- Witness for C3's amended statement at a concrete zero query vector and
two document rows. -/
theorem claim3_witness :
    cosine_similarity (fun x => x) [(0 : ℚ)] [[1], [2, 3]] = [0, 0] := by
  have h := claim3_no_zero_guard (fun x => x) rfl [(0 : ℚ)] (by decide) [[1], [2, 3]]
  simpa using h

/-! ### Claim C8: batching does not change embeddings -/

theorem embedLoop_eq_map {α β : Type} (f : α → β) (bs : Nat) (hbs : 0 < bs) :
    ∀ l : List α, embedLoop f bs hbs l = l.map f
  | [] => by simp [embedLoop]
  | t :: ts => by
    rw [embedLoop]
    rw [embedLoop_eq_map f bs hbs ((t :: ts).drop bs)]
    rw [← List.map_append, List.take_append_drop]
termination_by l => l.length
decreasing_by simp [List.length_drop]; omega

/-- C8.  For every non-empty text list and any two positive batch sizes,
`embed_texts` returns the same matrix: one row per input, row i being the
embedding of texts[i], independent of where batch boundaries fall (the
embedding capability `f` being a pure per-text function). -/
theorem claim8_batching_irrelevant {α β : Type} (f : α → β) (texts : List α)
    (h : texts ≠ []) (bs₁ bs₂ : Nat) (h₁ : 0 < bs₁) (h₂ : 0 < bs₂) :
    embed_texts f bs₁ h₁ texts = Except.ok (texts.map f) ∧
    embed_texts f bs₁ h₁ texts = embed_texts f bs₂ h₂ texts := by
  have he : texts.isEmpty = false := by
    cases texts with
    | nil => exact absurd rfl h
    | cons a l => rfl
  constructor
  · simp [embed_texts, he, embedLoop_eq_map]
  · simp [embed_texts, he, embedLoop_eq_map]

/-- Witness for C8: batch sizes 2 and 64 on a three-text list agree with
the unbatched per-text map. -/
theorem claim8_witness :
    embed_texts (fun n : Nat => n + 1) 2 (by decide) [1, 2, 3] = Except.ok [2, 3, 4] ∧
    embed_texts (fun n : Nat => n + 1) 2 (by decide) [1, 2, 3] =
      embed_texts (fun n : Nat => n + 1) 64 (by decide) [1, 2, 3] := by
  have h := claim8_batching_irrelevant (fun n : Nat => n + 1) [1, 2, 3] (by decide) 2 64
    (by decide) (by decide)
  exact ⟨h.1.trans (by rfl), h.2⟩

/-! ### Claim C10: termination of the chunking loop -/

theorem pyChunkStart_closed (maxW ov : Nat) :
    ∀ n : Nat, pyChunkStart maxW ov n = n * ((maxW : Int) - ov)
  | 0 => by simp [pyChunkStart]
  | n + 1 => by
    rw [pyChunkStart, pyChunkStart_closed maxW ov n]
    push_cast
    ring

/-- C10.  The `while start < len(words)` loop of `split_into_chunks` is
entered at all only when the text has more than `max_words` words, and its
control variable follows `pyChunkStart`; once entered, some iteration count
drives `start` past the end (loop exit) precisely when
`overlap < max_words`, i.e. exactly when each iteration advances `start` by
the positive amount `max_words − overlap`; with `overlap ≥ max_words` the
start value never advances past the end and the loop runs forever. -/
theorem claim10_termination (maxW ov len : Nat) (hlen : maxW < len) :
    (∃ n, (len : Int) ≤ pyChunkStart maxW ov n) ↔ ov < maxW := by
  constructor
  · intro hex
    obtain ⟨n, hn⟩ := hex
    by_contra hov
    push_neg at hov
    rw [pyChunkStart_closed] at hn
    have hd : (maxW : Int) - ov ≤ 0 := by omega
    have hn0 : (0 : Int) ≤ (n : Int) := Int.ofNat_nonneg n
    nlinarith
  · intro hov
    refine ⟨len, ?_⟩
    rw [pyChunkStart_closed]
    have h1 : (1 : Int) ≤ (maxW : Int) - ov := by omega
    nlinarith

/-! ### Word-splitting lemmas for C5 -/

theorem splitWAux_words : ∀ (s acc : List Char), (∀ c ∈ acc, pyIsSpace c = false) →
    ∀ w ∈ splitWAux s acc, w ≠ [] ∧ ∀ c ∈ w, pyIsSpace c = false
  | [], acc, hacc => by
    intro w hw
    by_cases h : acc = []
    · simp [splitWAux, h] at hw
    · simp [splitWAux, h] at hw
      subst hw
      refine ⟨by simpa using h, ?_⟩
      intro c hc
      exact hacc c (List.mem_reverse.mp hc)
  | c :: t, acc, hacc => by
    intro w hw
    by_cases hsp : pyIsSpace c = true
    · by_cases h : acc = []
      · simp only [splitWAux, hsp, if_true, h, if_pos rfl] at hw
        exact splitWAux_words t [] (by simp) w hw
      · simp only [splitWAux, hsp, if_true, if_neg h, List.mem_cons] at hw
        rcases hw with rfl | hw
        · refine ⟨by simpa using h, ?_⟩
          intro d hd
          exact hacc d (List.mem_reverse.mp hd)
        · exact splitWAux_words t [] (by simp) w hw
    · simp only [splitWAux, hsp, if_false] at hw
      refine splitWAux_words t (c :: acc) ?_ w hw
      intro d hd
      rcases List.mem_cons.mp hd with rfl | hd
      · simpa using hsp
      · exact hacc d hd

theorem pySplitW_words (s : List Char) :
    ∀ w ∈ pySplitW s, w ≠ [] ∧ ∀ c ∈ w, pyIsSpace c = false :=
  splitWAux_words s [] (by simp)

theorem splitWAux_allSpace : ∀ (sp acc : List Char), (∀ c ∈ sp, pyIsSpace c = true) →
    splitWAux sp acc = splitWAux [] acc
  | [], acc, _ => rfl
  | d :: sp, acc, hsp => by
    have hd : pyIsSpace d = true := hsp d (List.mem_cons_self d sp)
    have ih := splitWAux_allSpace sp [] (by
      intro c hc
      exact hsp c (List.mem_cons_of_mem d hc))
    by_cases h : acc = []
    · simp only [splitWAux, hd, if_true, h, if_pos rfl, ih]
    · simp only [splitWAux, hd, if_true, if_neg h, ih]

theorem splitWAux_append_spaces : ∀ (x sp acc : List Char),
    (∀ c ∈ sp, pyIsSpace c = true) → splitWAux (x ++ sp) acc = splitWAux x acc
  | [], sp, acc, hsp => by simpa using splitWAux_allSpace sp acc hsp
  | c :: x, sp, acc, hsp => by
    by_cases hc : pyIsSpace c = true
    · by_cases h : acc = []
      · simp only [List.cons_append, splitWAux, hc, if_true, h, if_pos rfl]
        exact splitWAux_append_spaces x sp [] hsp
      · simp only [List.cons_append, splitWAux, hc, if_true, if_neg h, List.append_eq]
        rw [splitWAux_append_spaces x sp [] hsp]
    · simp only [List.cons_append, splitWAux, hc, if_false]
      exact splitWAux_append_spaces x sp (c :: acc) hsp

theorem splitWAux_dropLeading : ∀ (s : List Char),
    splitWAux (s.dropWhile pyIsSpace) [] = splitWAux s []
  | [] => rfl
  | c :: t => by
    by_cases hc : pyIsSpace c = true
    · rw [List.dropWhile_cons]
      simp only [hc, if_true]
      rw [splitWAux_dropLeading t]
      simp [splitWAux, hc]
    · rw [List.dropWhile_cons]
      simp [hc]

theorem pySplitW_strip (s : List Char) : pySplitW (pyStrip s) = pySplitW s := by
  unfold pySplitW pyStrip
  set t := s.dropWhile pyIsSpace with ht
  have hdecomp : t = dropTrail t ++ (t.reverse.takeWhile pyIsSpace).reverse := by
    unfold dropTrail
    rw [← List.reverse_append, List.takeWhile_append_dropWhile, List.reverse_reverse]
  have hsp : ∀ c ∈ (t.reverse.takeWhile pyIsSpace).reverse, pyIsSpace c = true := by
    intro c hc
    exact List.mem_takeWhile_imp (List.mem_reverse.mp hc)
  calc splitWAux (dropTrail t) []
      = splitWAux (dropTrail t ++ (t.reverse.takeWhile pyIsSpace).reverse) [] :=
        (splitWAux_append_spaces _ _ [] hsp).symm
    _ = splitWAux t [] := by rw [← hdecomp]
    _ = splitWAux s [] := splitWAux_dropLeading s

theorem splitWAux_word : ∀ (w : List Char), w ≠ [] → (∀ c ∈ w, pyIsSpace c = false) →
    ∀ (r acc : List Char), splitWAux (w ++ r) acc = splitWAux r (w.reverse ++ acc)
  | [], hw, _ => absurd rfl hw
  | c :: w, _, hns => by
    intro r acc
    have hc : pyIsSpace c = false := hns c (List.mem_cons_self c w)
    by_cases hw : w = []
    · subst hw
      simp [splitWAux, hc]
    · have ih := splitWAux_word w hw (fun d hd => hns d (List.mem_cons_of_mem c hd)) r (c :: acc)
      have hstep : splitWAux (c :: (w ++ r)) acc = splitWAux (w ++ r) (c :: acc) := by
        simp [splitWAux, hc]
      show splitWAux ((c :: w) ++ r) acc = splitWAux r ((c :: w).reverse ++ acc)
      rw [List.cons_append, hstep, ih, List.reverse_cons, List.append_assoc,
        List.singleton_append]

theorem pySplitW_join : ∀ (ws : List (List Char)),
    (∀ w ∈ ws, w ≠ [] ∧ ∀ c ∈ w, pyIsSpace c = false) →
    pySplitW (pyJoin [' '] ws) = ws
  | [], _ => rfl
  | [w], hws => by
    obtain ⟨hw, hns⟩ := hws w (List.mem_cons_self w [])
    unfold pySplitW pyJoin
    have := splitWAux_word w hw hns [] []
    rw [List.append_nil] at this
    rw [this]
    simp [splitWAux, hw]
  | w :: x :: ws, hws => by
    obtain ⟨hw, hns⟩ := hws w (List.mem_cons_self w (x :: ws))
    have ih := pySplitW_join (x :: ws) (fun u hu => hws u (List.mem_cons_of_mem w hu))
    unfold pySplitW
    have hjoin : pyJoin [' '] (w :: x :: ws) = w ++ (' ' :: pyJoin [' '] (x :: ws)) := by
      show w ++ [' '] ++ pyJoin [' '] (x :: ws) = _
      simp
    rw [hjoin, splitWAux_word w hw hns _ [], List.append_nil]
    have hsp : pyIsSpace ' ' = true := by decide
    have hrev : w.reverse ≠ [] := by simpa using hw
    simp only [splitWAux, hsp, if_true, if_neg hrev, List.reverse_reverse]
    exact congrArg (fun l => w :: l) ih

/-! ### Claim C5: chunk word-count bound and short-paragraph passthrough -/

theorem chunkLoop_counts (maxW step : Nat) (hstep : 0 < step) :
    ∀ ws : List (List Char), (∀ w ∈ ws, w ≠ [] ∧ ∀ c ∈ w, pyIsSpace c = false) →
      ∀ ch ∈ chunkLoop maxW step hstep ws, (pySplitW ch).length ≤ maxW
  | [] => by intro _ ch hch; simp [chunkLoop] at hch
  | w :: ws => by
    intro hws ch hch
    rw [chunkLoop] at hch
    rcases List.mem_cons.mp hch with rfl | hch
    · unfold chunkJoin
      rw [pySplitW_strip, pySplitW_join _ (fun u hu => hws u (List.take_subset maxW _ hu))]
      simp [List.length_take]
    · exact chunkLoop_counts maxW step hstep ((w :: ws).drop step)
        (fun u hu => hws u (List.drop_subset step _ hu)) ch hch
termination_by ws => ws.length
decreasing_by simp [List.length_drop]; omega

/-- C5.  For every paragraph and every configured maximum with
`overlap < max_words` (defaults 200/40): every chunk `split_into_chunks`
produces has word count at most the maximum, and a paragraph with at least
one word and at most the maximum word count is returned as the single whole
chunk `[text.strip()]`, not re-split. -/
theorem claim5_chunk_word_bound (maxW ov : Nat) (text : List Char) (h : ov < maxW) :
    (∀ ch ∈ split_into_chunks maxW ov h text, (pySplitW ch).length ≤ maxW) ∧
    (pySplitW text ≠ [] → (pySplitW text).length ≤ maxW →
      split_into_chunks maxW ov h text = [pyStrip text]) := by
  constructor
  · intro ch hch
    unfold split_into_chunks at hch
    by_cases h1 : pySplitW text = []
    · simp [h1] at hch
    · by_cases h2 : (pySplitW text).length ≤ maxW
      · simp only [h1, if_false, h2, if_true, List.mem_singleton] at hch
        subst hch
        rw [pySplitW_strip]
        exact h2
      · simp only [h1, if_false, h2] at hch
        exact chunkLoop_counts maxW (maxW - ov) (by omega) (pySplitW text)
          (pySplitW_words text) ch hch
  · intro h1 h2
    unfold split_into_chunks
    simp [h1, h2]

/-- Witness for C5: with the default parameters, the two-word paragraph
`"a b"` is returned whole (and stripped). -/
theorem claim5_witness :
    split_into_chunks 200 40 (by decide) "a b".data = [pyStrip "a b".data] :=
  (claim5_chunk_word_bound 200 40 "a b".data (by decide)).2 (by decide) (by decide)

/-- Witness for C10 at the default parameters and a 500-word text. -/
theorem claim10_witness :
    (∃ n, (500 : Int) ≤ pyChunkStart 200 40 n) ↔ 40 < 200 :=
  claim10_termination 200 40 500 (by decide)

/-! ### Claim C2: the retrieve(query, k) contract -/

theorem retrieveModel_map_source (texts sources : List (List Char)) (sims : List ℚ)
    (l : List Nat) (k : Nat) :
    ((l.take k).map
        (fun i => (⟨texts.getD i [], sims.getD i 0, sources.getD i []⟩ : RetrievedDoc))).map
      RetrievedDoc.source = (l.take k).map (fun i => sources.getD i []) := by
  rw [List.map_map]
  rfl

/-- Counterexample to C2 as stated: on two chunks with exactly equal
similarities, the index permutation `[1, 0]` fully satisfies the sortedness
contract of `np.argsort` (a permutation of the positions along which the
keys are sorted), yet retrieval then returns the tied chunks in descending
original order — `np.argsort`'s default quicksort is documented as
unstable, so the code does not guarantee the claimed ascending tie-break. -/
theorem claim2_counterexample :
    argsortSpec [(1 : ℚ), 1] [1, 0] ∧
    (retrieveModel [['a'], ['b']] [['s', '0'], ['s', '1']] [(1 : ℚ), 1] [1, 0] 2).map
        RetrievedDoc.source = [['s', '1'], ['s', '0']] := by
  refine ⟨⟨by decide, by decide⟩, by decide⟩

/-- C2 amended.  For every built index (index-aligned `texts`/`sources`
with pairwise-distinct source ids), every similarity vector, every `k ≥ 0`
and every permutation `np.argsort` may return, `retrieve` returns
`min k n ≤ k` results, sorted by similarity non-increasing, with
pairwise-distinct source ids, and returns every chunk (in some order) when
`k` reaches the corpus size; the order among exact-similarity ties is
whatever the unstable default sort produced, not necessarily ascending by
corpus index. -/
theorem claim2_retrieve_contract (texts sources : List (List Char)) (sims : List ℚ)
    (perm : List Nat) (k : Nat)
    (hspec : argsortSpec sims perm)
    (hsl : sources.length = sims.length)
    (hnd : sources.Nodup) :
    (retrieveModel texts sources sims perm k).length = min k sims.length ∧
    List.Pairwise (fun a b => b.similarity ≤ a.similarity)
      (retrieveModel texts sources sims perm k) ∧
    ((retrieveModel texts sources sims perm k).map RetrievedDoc.source).Nodup ∧
    (sims.length ≤ k →
      List.Perm ((retrieveModel texts sources sims perm k).map RetrievedDoc.source)
        sources) := by
  obtain ⟨hperm, hsort⟩ := hspec
  have hlen : perm.length = sims.length := by simpa using hperm.length_eq
  have hmem : ∀ i ∈ perm, i < sims.length := by
    intro i hi
    exact List.mem_range.mp (hperm.subset hi)
  refine ⟨?_, ?_, ?_, ?_⟩
  · simp [retrieveModel, List.length_take, hlen]
  · rw [retrieveModel, List.pairwise_map]
    exact List.Pairwise.sublist (List.take_sublist k perm) hsort
  · rw [retrieveModel, retrieveModel_map_source]
    have hndperm : perm.Nodup := hperm.symm.nodup (List.nodup_range _)
    have htake : (perm.take k).Nodup := List.Nodup.sublist (List.take_sublist k perm) hndperm
    apply List.Nodup.map_on ?_ htake
    intro i hi j hj hij
    have hi' : i < sources.length := by rw [hsl]; exact hmem i (List.take_subset k perm hi)
    have hj' : j < sources.length := by rw [hsl]; exact hmem j (List.take_subset k perm hj)
    rw [List.getD_eq_getElem sources [] hi', List.getD_eq_getElem sources [] hj'] at hij
    exact (List.Nodup.getElem_inj_iff hnd).mp hij
  · intro hk
    have htake : perm.take k = perm := List.take_of_length_le (by omega)
    rw [retrieveModel, retrieveModel_map_source, htake]
    have h1 : List.Perm (perm.map (fun i => sources.getD i []))
        ((List.range sims.length).map (fun i => sources.getD i [])) :=
      List.Perm.map _ hperm
    have h2 : (List.range sims.length).map (fun i => sources.getD i []) = sources := by
      rw [← hsl]
      exact map_getD_range sources []
    rw [h2] at h1
    exact h1

/-- Witness for C2's amended contract: a two-chunk index with distinct
similarities, the sorted permutation `[0, 1]`, and `k = 5` exceeding the
corpus size. -/
theorem claim2_witness :
    (retrieveModel [['a'], ['b']] [['s', '0'], ['s', '1']] [(2 : ℚ), 1] [0, 1] 5).length =
        min 5 2 ∧
    List.Pairwise (fun a b => b.similarity ≤ a.similarity)
      (retrieveModel [['a'], ['b']] [['s', '0'], ['s', '1']] [(2 : ℚ), 1] [0, 1] 5) ∧
    ((retrieveModel [['a'], ['b']] [['s', '0'], ['s', '1']] [(2 : ℚ), 1] [0, 1] 5).map
        RetrievedDoc.source).Nodup ∧
    (([(2 : ℚ), 1] : List ℚ).length ≤ 5 →
      List.Perm
        ((retrieveModel [['a'], ['b']] [['s', '0'], ['s', '1']] [(2 : ℚ), 1] [0, 1] 5).map
          RetrievedDoc.source)
        [['s', '0'], ['s', '1']]) :=
  claim2_retrieve_contract [['a'], ['b']] [['s', '0'], ['s', '1']] [(2 : ℚ), 1] [0, 1] 5
    ⟨by decide, by decide⟩ (by decide) (by decide)

/-! ### Claim C4: defensive two-tier critic-output parsing -/

theorem parse_critic_json_some {J : Type} (loads : List Char → Option J) (emptyJ : J)
    (t : List Char) (v : J) (ht : t ≠ []) (hl : loads t = some v) :
    parse_critic_json loads emptyJ t = v := by
  unfold parse_critic_json
  rw [if_neg ht, hl]

theorem parse_critic_json_none {J : Type} (loads : List Char → Option J) (emptyJ : J)
    (t : List Char) (ht : t ≠ []) (hl : loads t = none) :
    parse_critic_json loads emptyJ t =
      (if pyFindChar '{' t ≠ -1 ∧ pyRfindChar '}' t ≠ -1 ∧
          pyFindChar '{' t < pyRfindChar '}' t then
        match loads (pySliceIncl t (pyFindChar '{' t) (pyRfindChar '}' t)) with
        | some v => v
        | none => emptyJ
      else emptyJ) := by
  unfold parse_critic_json
  rw [if_neg ht, hl]

/-- C4.  For every input string the critic-output parser is total (the
model of a function all of whose exception paths are caught): the empty
string degrades to the empty result; a whole-string parse wins; otherwise
the substring from the first `'{'` to the last `'}'` is recovered and
parsed; and under a parser that accepts nothing the result is the degraded
empty object.  Moreover the responsible branch of `run_query` always
completes, its `answer` being the safe-rewrite output, for every critic
text.  Quantified over every abstract JSON parser `loads`. -/
theorem claim4_parse_or_degrade {J : Type} (loads : List Char → Option J) (emptyJ : J) :
    (parse_critic_json loads emptyJ [] = emptyJ) ∧
    (∀ (t : List Char) (v : J), t ≠ [] → loads t = some v →
      parse_critic_json loads emptyJ t = v) ∧
    (∀ (pre mid post : List Char) (v : J),
      loads (pre ++ ('{' :: (mid ++ ('}' :: post)))) = none →
      '{' ∉ pre → '}' ∉ post →
      loads ('{' :: (mid ++ ['}'])) = some v →
      parse_critic_json loads emptyJ (pre ++ ('{' :: (mid ++ ('}' :: post)))) = v) ∧
    (∀ t : List Char, (∀ u, loads u = none) → parse_critic_json loads emptyJ t = emptyJ) ∧
    (∀ (d : AppDeps J) (q : List Char),
      (run_query_responsible d emptyJ q).answer =
        d.safeRewrite q (run_query_responsible d emptyJ q).texts
          (run_query_responsible d emptyJ q).draft
          (run_query_responsible d emptyJ q).critic_json_str) := by
  refine ⟨by simp [parse_critic_json], ?_, ?_, ?_, ?_⟩
  · intro t v ht hv
    exact parse_critic_json_some loads emptyJ t v ht hv
  · intro pre mid post v hwhole hpre hpost hv
    have hne : pre ++ ('{' :: (mid ++ ('}' :: post))) ≠ [] := by simp
    have hf : pyFindChar '{' (pre ++ ('{' :: (mid ++ ('}' :: post)))) = (pre.length : Int) := by
      unfold pyFindChar
      rw [findIdx?_append_first (fun d => d = '{') pre '{' (mid ++ ('}' :: post)) 0
        (by intro x hx; simp only [decide_eq_false_iff_not]; exact fun h => hpre (h ▸ hx))
        (by simp)]
      simp
    have hr : pyRfindChar '}' (pre ++ ('{' :: (mid ++ ('}' :: post)))) =
        ((pre.length + mid.length + 1 : Nat) : Int) := by
      unfold pyRfindChar
      have hrev : (pre ++ ('{' :: (mid ++ ('}' :: post)))).reverse =
          post.reverse ++ ('}' :: (mid.reverse ++ ('{' :: pre.reverse))) := by
        simp
      rw [hrev]
      rw [findIdx?_append_first (fun d => d = '}') post.reverse '}'
        (mid.reverse ++ ('{' :: pre.reverse)) 0
        (by
          intro x hx
          simp only [decide_eq_false_iff_not]
          exact fun h => hpost (h ▸ (List.mem_reverse.mp hx)))
        (by simp)]
      simp [List.length_append]
      omega
    rw [parse_critic_json_none loads emptyJ _ hne hwhole, hf, hr]
    have hcond : ((pre.length : Int) ≠ -1 ∧ ((pre.length + mid.length + 1 : Nat) : Int) ≠ -1 ∧
        (pre.length : Int) < ((pre.length + mid.length + 1 : Nat) : Int)) := by
      refine ⟨by omega, by omega, by omega⟩
    rw [if_pos hcond]
    have hslice : pySliceIncl (pre ++ ('{' :: (mid ++ ('}' :: post)))) (pre.length : Int)
        ((pre.length + mid.length + 1 : Nat) : Int) = '{' :: (mid ++ ['}']) := by
      unfold pySliceIncl
      rw [Int.toNat_natCast, Int.toNat_natCast, List.drop_left]
      have harg : pre.length + mid.length + 1 + 1 - pre.length = mid.length + 2 := by omega
      rw [harg]
      have hform : '{' :: (mid ++ ('}' :: post)) = ('{' :: (mid ++ ['}'])) ++ post := by simp
      rw [hform]
      exact List.take_left' (by simp)
    rw [hslice, hv]
  · intro t hall
    by_cases ht : t = []
    · simp [parse_critic_json, ht]
    · rw [parse_critic_json_none loads emptyJ t ht (hall t)]
      by_cases hc : (pyFindChar '{' t ≠ -1 ∧ pyRfindChar '}' t ≠ -1 ∧
          pyFindChar '{' t < pyRfindChar '}' t)
      · rw [if_pos hc, hall _]
      · rw [if_neg hc]
  · intro d q
    rfl

/-- Witness for C4: a JSON object embedded in surrounding prose is
recovered by the two-tier fallback, and a parser that accepts nothing
degrades to the empty result. -/
theorem claim4_witness :
    parse_critic_json loadsW 0 ("ab".data ++ ('{' :: ("x".data ++ ('}' :: "cd".data)))) = 42 ∧
    parse_critic_json (fun _ => (none : Option Nat)) 0 "zz".data = 0 :=
  ⟨(claim4_parse_or_degrade loadsW 0).2.2.1 "ab".data "x".data "cd".data 42
      (by decide) (by decide) (by decide) (by decide),
    (claim4_parse_or_degrade (fun _ => (none : Option Nat)) 0).2.2.2.1 "zz".data
      (fun _ => rfl)⟩

/-! ### Lexicographic-order lemmas for the sorted() model -/

theorem lexLe_cons_iff (x y : Char) (xs ys : List Char) :
    lexLe (x :: xs) (y :: ys) = true ↔ x < y ∨ (x = y ∧ lexLe xs ys = true) := by
  by_cases h1 : x < y
  · simp [lexLe, h1]
  · by_cases h2 : y < x
    · have hne : x ≠ y := ne_of_gt h2
      simp [lexLe, h1, h2, hne]
    · have hxy : x = y := le_antisymm (not_lt.mp h2) (not_lt.mp h1)
      simp [lexLe, h1, h2, hxy]

theorem lexLe_total : ∀ (a b : List Char), lexLe a b = true ∨ lexLe b a = true
  | [], _ => Or.inl rfl
  | _ :: _, [] => Or.inr rfl
  | x :: xs, y :: ys => by
    rcases lt_trichotomy x y with h | h | h
    · exact Or.inl (by rw [lexLe_cons_iff]; exact Or.inl h)
    · rcases lexLe_total xs ys with h2 | h2
      · exact Or.inl (by rw [lexLe_cons_iff]; exact Or.inr ⟨h, h2⟩)
      · exact Or.inr (by rw [lexLe_cons_iff]; exact Or.inr ⟨h.symm, h2⟩)
    · exact Or.inr (by rw [lexLe_cons_iff]; exact Or.inl h)

theorem lexLe_antisymm : ∀ (a b : List Char), lexLe a b = true → lexLe b a = true → a = b
  | [], [], _, _ => rfl
  | [], _ :: _, _, h2 => by simp [lexLe] at h2
  | _ :: _, [], h1, _ => by simp [lexLe] at h1
  | x :: xs, y :: ys, h1, h2 => by
    rw [lexLe_cons_iff] at h1 h2
    rcases h1 with h1 | ⟨rfl, h1⟩
    · rcases h2 with h2 | ⟨h2, _⟩
      · exact absurd h2 (lt_asymm h1)
      · exact absurd (h2 ▸ h1) (lt_irrefl y)
    · rcases h2 with h2 | ⟨_, h2⟩
      · exact absurd h2 (lt_irrefl x)
      · rw [lexLe_antisymm xs ys h1 h2]

theorem lexLe_trans : ∀ (a b c : List Char),
    lexLe a b = true → lexLe b c = true → lexLe a c = true
  | [], _, _, _, _ => rfl
  | _ :: _, [], _, h1, _ => by simp [lexLe] at h1
  | _ :: _, _ :: _, [], _, h2 => by simp [lexLe] at h2
  | x :: xs, y :: ys, z :: zs, h1, h2 => by
    rw [lexLe_cons_iff] at h1 h2 ⊢
    rcases h1 with h1 | ⟨rfl, h1⟩
    · rcases h2 with h2 | ⟨rfl, h2⟩
      · exact Or.inl (lt_trans h1 h2)
      · exact Or.inl h1
    · rcases h2 with h2 | ⟨rfl, h2⟩
      · exact Or.inl h2
      · exact Or.inr ⟨rfl, lexLe_trans xs ys zs h1 h2⟩

/-! ### Insertion-sort lemmas for the sorted() model -/

theorem insertSorted_perm (x : List Char × List Char) :
    ∀ l, List.Perm (insertSorted x l) (x :: l)
  | [] => List.Perm.refl _
  | y :: ys => by
    unfold insertSorted
    by_cases h : lexLe x.1 y.1 = true
    · rw [if_pos h]
    · rw [if_neg h]
      exact ((insertSorted_perm x ys).cons y).trans (List.Perm.swap x y ys)

theorem sortByName_perm : ∀ l, List.Perm (sortByName l) l
  | [] => List.Perm.refl _
  | e :: l => by
    show List.Perm (insertSorted e (sortByName l)) (e :: l)
    exact (insertSorted_perm e (sortByName l)).trans ((sortByName_perm l).cons e)

theorem insertSorted_sorted (x : List Char × List Char) :
    ∀ l, List.Pairwise (fun p q => lexLe p.1 q.1 = true) l →
      List.Pairwise (fun p q => lexLe p.1 q.1 = true) (insertSorted x l)
  | [], _ => by simp [insertSorted]
  | y :: ys, hl => by
    unfold insertSorted
    by_cases h : lexLe x.1 y.1 = true
    · rw [if_pos h]
      refine List.Pairwise.cons ?_ hl
      intro z hz
      rcases List.mem_cons.mp hz with rfl | hz
      · exact h
      · exact lexLe_trans _ _ _ h (List.rel_of_pairwise_cons hl hz)
    · rw [if_neg h]
      have htot : lexLe y.1 x.1 = true := (lexLe_total x.1 y.1).resolve_left h
      refine List.Pairwise.cons ?_ (insertSorted_sorted x ys (List.Pairwise.of_cons hl))
      intro z hz
      rcases List.mem_cons.mp (((insertSorted_perm x ys).mem_iff).mp hz) with rfl | hz2
      · exact htot
      · exact List.rel_of_pairwise_cons hl hz2

theorem sortByName_sorted : ∀ l, List.Pairwise (fun p q => lexLe p.1 q.1 = true) (sortByName l)
  | [] => List.Pairwise.nil
  | e :: l => by
    show List.Pairwise _ (insertSorted e (sortByName l))
    exact insertSorted_sorted e _ (sortByName_sorted l)

theorem sorted_perm_eq : ∀ (l1 l2 : List (List Char × List Char)), List.Perm l1 l2 →
    List.Pairwise (fun p q => lexLe p.1 q.1 = true) l1 →
    List.Pairwise (fun p q => lexLe p.1 q.1 = true) l2 →
    (l1.map Prod.fst).Nodup → l1 = l2
  | [], l2, hp, _, _, _ => by
    have hlen := hp.length_eq
    cases l2 with
    | nil => rfl
    | cons b t2 => simp at hlen
  | a :: t1, [], hp, _, _, _ => by
    have hlen := hp.length_eq
    simp at hlen
  | a :: t1, b :: t2, hp, hs1, hs2, hnd => by
    by_cases hab : a = b
    · subst hab
      have hnd0 : (a.1 :: t1.map Prod.fst).Nodup := by simpa using hnd
      rw [sorted_perm_eq t1 t2 hp.cons_inv (List.Pairwise.of_cons hs1)
        (List.Pairwise.of_cons hs2) (List.Nodup.of_cons hnd0)]
    · exfalso
      have hbmem : b ∈ a :: t1 := hp.symm.subset (List.mem_cons_self b t2)
      have hbt1 : b ∈ t1 := by
        rcases List.mem_cons.mp hbmem with h | h
        · exact absurd h.symm hab
        · exact h
      have hamem : a ∈ b :: t2 := hp.subset (List.mem_cons_self a t1)
      have hat2 : a ∈ t2 := by
        rcases List.mem_cons.mp hamem with h | h
        · exact absurd h hab
        · exact h
      have h1 : lexLe a.1 b.1 = true := List.rel_of_pairwise_cons hs1 hbt1
      have h2 : lexLe b.1 a.1 = true := List.rel_of_pairwise_cons hs2 hat2
      have hkey : a.1 = b.1 := lexLe_antisymm _ _ h1 h2
      have hmem : a.1 ∈ t1.map Prod.fst := by
        rw [hkey]
        exact List.mem_map_of_mem Prod.fst hbt1
      have hnd0 : (a.1 :: t1.map Prod.fst).Nodup := by simpa using hnd
      exact (List.nodup_cons.mp hnd0).1 hmem

/-! ### Claim C6: source-id shape, global counter, uniqueness -/

theorem appendChunks_spec (name : List Char) :
    ∀ (cs : List (List Char)) (counter : Nat),
      (appendChunks name cs counter).2.2 =
          counter + (appendChunks name cs counter).2.1.length ∧
        ∀ i (hi : i < (appendChunks name cs counter).2.1.length),
          (appendChunks name cs counter).2.1[i] = mkSourceId name (counter + i)
  | [], counter => by
    refine ⟨by simp [appendChunks], ?_⟩
    intro i hi
    simp [appendChunks] at hi
  | c :: cs, counter => by
    by_cases hc : c = []
    · simp only [appendChunks, if_pos hc]
      exact appendChunks_spec name cs counter
    · obtain ⟨hcnt, hget⟩ := appendChunks_spec name cs (counter + 1)
      simp only [appendChunks, if_neg hc]
      refine ⟨by simp only [List.length_cons]; omega, ?_⟩
      intro i hi
      cases i with
      | zero => simp
      | succ j =>
        simp only [List.getElem_cons_succ]
        simp only [List.length_cons] at hi
        rw [hget j (by omega)]
        congr 1
        omega

theorem loadLoop_spec :
    ∀ (files : List (List Char × List Char)) (counter : Nat) (i : Nat)
      (hi : i < (loadLoop files counter).2.length),
      ∃ name, (loadLoop files counter).2[i] = mkSourceId name (counter + i)
  | [], counter, i, hi => by simp [loadLoop] at hi
  | (name, content) :: rest, counter, i, hi => by
    obtain ⟨hcnt, hget⟩ := appendChunks_spec name (fileChunks content) counter
    simp only [loadLoop] at hi ⊢
    rw [List.getElem_append]
    by_cases hiB : i < (appendChunks name (fileChunks content) counter).2.1.length
    · rw [dif_pos hiB]
      exact ⟨name, hget i hiB⟩
    · rw [dif_neg hiB]
      simp only [List.length_append] at hi
      obtain ⟨nm, hnm⟩ := loadLoop_spec rest
        ((appendChunks name (fileChunks content) counter).2.2)
        (i - (appendChunks name (fileChunks content) counter).2.1.length) (by omega)
      refine ⟨nm, ?_⟩
      rw [hnm, hcnt]
      congr 1
      omega

theorem srcIdxRev_mkSourceId (name : List Char) (i : Nat) :
    srcIdxRev (mkSourceId name i) = (natDigits i).reverse := by
  unfold srcIdxRev mkSourceId
  have hrev : (name ++ ('#' :: natDigits i)).reverse =
      (natDigits i).reverse ++ ('#' :: name.reverse) := by simp
  rw [hrev]
  refine takeWhile_append_stop _ _ _ _ ?_ (by simp)
  intro c hc
  simp only [decide_eq_true_eq]
  exact natDigits_ne_hash i c (List.mem_reverse.mp hc)

theorem mkSourceId_inj_idx (n1 n2 : List Char) (i j : Nat)
    (h : mkSourceId n1 i = mkSourceId n2 j) : i = j := by
  have h1 := srcIdxRev_mkSourceId n1 i
  have h2 := srcIdxRev_mkSourceId n2 j
  rw [h] at h1
  rw [h1] at h2
  exact natDigits_inj i j (List.reverse_injective h2)

theorem loadLoop_sources_nodup (files : List (List Char × List Char)) (counter : Nat) :
    (loadLoop files counter).2.Nodup := by
  rw [List.nodup_iff_injective_get]
  intro a b hab
  simp only [List.get_eq_getElem] at hab
  obtain ⟨n1, h1⟩ := loadLoop_spec files counter a.1 a.2
  obtain ⟨n2, h2⟩ := loadLoop_spec files counter b.1 b.2
  rw [h1, h2] at hab
  have h3 := mkSourceId_inj_idx n1 n2 (counter + a.1) (counter + b.1) hab
  exact Fin.ext (by omega)

/-- C6.  After a full build, the source-id list is pairwise distinct, and
the entry at every position `i` is `<document-name>#<i>` — the trailing
index is the single global counter, equal to the chunk's position across
the whole corpus, increasing monotonically and never reset per document. -/
theorem claim6_source_ids (listing : List (List Char × List Char))
    (texts sources : List (List Char))
    (h : load_corpus (some listing) = .ok (texts, sources)) :
    sources.Nodup ∧
    ∀ i (hi : i < sources.length), ∃ name, sources[i] = mkSourceId name i := by
  simp only [load_corpus] at h
  by_cases hf : sortByName (listing.filter (fun f => isTxtName f.1)) = []
  · rw [if_pos hf] at h
    exact Except.noConfusion h
  · rw [if_neg hf] at h
    have h' : loadLoop (sortByName (listing.filter (fun f => isTxtName f.1))) 0 =
        (texts, sources) := by
      injection h
    have hs : sources = (loadLoop (sortByName (listing.filter (fun f => isTxtName f.1))) 0).2 := by
      rw [h']
    rw [hs]
    refine ⟨loadLoop_sources_nodup _ 0, ?_⟩
    intro i hi
    obtain ⟨nm, hnm⟩ := loadLoop_spec _ 0 i hi
    refine ⟨nm, ?_⟩
    rw [hnm]
    congr 1
    omega

/-- Witness for C6: a one-document corpus whose single chunk gets the
source id `"a.txt#0"`. -/
theorem claim6_witness :
    (["a.txt#0".data] : List (List Char)).Nodup ∧
    ∀ i (hi : i < (["a.txt#0".data] : List (List Char)).length),
      ∃ name, (["a.txt#0".data] : List (List Char))[i] = mkSourceId name i :=
  claim6_source_ids [("a.txt".data, "x y".data)] ["x y".data] ["a.txt#0".data] rfl

/-! ### Claim C7: index-construction error behaviour -/

/-- C7.  Index construction fails exactly when the path is not a directory
(the invalid-corpus-path error, Python `ValueError`) or the directory holds
no eligible `.txt` document (the empty-corpus error, Python
`FileNotFoundError`); otherwise loading returns the chunk and source
lists. -/
theorem claim7_corpus_errors :
    (load_corpus none = .error .invalidPath) ∧
    (∀ listing : List (List Char × List Char),
      listing.filter (fun f => isTxtName f.1) = [] →
      load_corpus (some listing) = .error .emptyCorpus) ∧
    (∀ listing : List (List Char × List Char),
      listing.filter (fun f => isTxtName f.1) ≠ [] →
      ∃ texts sources, load_corpus (some listing) = .ok (texts, sources)) := by
  refine ⟨rfl, ?_, ?_⟩
  · intro listing hl
    simp [load_corpus, hl, sortByName]
  · intro listing hl
    simp only [load_corpus]
    have hne : sortByName (listing.filter (fun f => isTxtName f.1)) ≠ [] := by
      intro hcon
      apply hl
      have hperm := sortByName_perm (listing.filter (fun f => isTxtName f.1))
      rw [hcon] at hperm
      have hlen := hperm.length_eq
      simp only [List.length_nil] at hlen
      exact List.length_eq_zero.mp hlen.symm
    rw [if_neg hne]
    exact ⟨_, _, rfl⟩

/-- Witness for C7: a directory with only a `.md` file raises the
empty-corpus error; a directory with a `.txt` file loads. -/
theorem claim7_witness :
    load_corpus (some [("notes.md".data, "x".data)]) = .error .emptyCorpus ∧
    ∃ texts sources, load_corpus (some [("a.txt".data, "x y".data)]) = .ok (texts, sources) :=
  ⟨claim7_corpus_errors.2.1 [("notes.md".data, "x".data)] (by decide),
    claim7_corpus_errors.2.2 [("a.txt".data, "x y".data)] (by decide)⟩

/-! ### Claim C9: determinism of the corpus build -/

/-- C9.  Corpus loading is deterministic: two builds over byte-identical
directory contents — the same set of (file name, file content) pairs, with
the pairwise-distinct file names a directory guarantees, enumerated by
`glob` in any two orders — produce identical chunk lists and identical
source-id lists. -/
theorem claim9_deterministic_build (l1 l2 : List (List Char × List Char))
    (hp : List.Perm l1 l2) (hn : (l1.map Prod.fst).Nodup) :
    load_corpus (some l1) = load_corpus (some l2) := by
  have hfilter : List.Perm (l1.filter (fun f => isTxtName f.1))
      (l2.filter (fun f => isTxtName f.1)) := hp.filter _
  have hnd1 : ((l1.filter (fun f => isTxtName f.1)).map Prod.fst).Nodup :=
    List.Nodup.sublist (List.Sublist.map Prod.fst (List.filter_sublist l1)) hn
  have hperm12 : List.Perm (sortByName (l1.filter (fun f => isTxtName f.1)))
      (sortByName (l2.filter (fun f => isTxtName f.1))) :=
    ((sortByName_perm _).trans hfilter).trans (sortByName_perm _).symm
  have hnd1' : ((sortByName (l1.filter (fun f => isTxtName f.1))).map Prod.fst).Nodup :=
    (((sortByName_perm (l1.filter (fun f => isTxtName f.1))).map Prod.fst).symm).nodup hnd1
  have heq : sortByName (l1.filter (fun f => isTxtName f.1)) =
      sortByName (l2.filter (fun f => isTxtName f.1)) :=
    sorted_perm_eq _ _ hperm12 (sortByName_sorted _) (sortByName_sorted _) hnd1'
  simp only [load_corpus]
  rw [heq]

/-- Witness for C9: the same two files enumerated in both orders produce
the same build. -/
theorem claim9_witness :
    load_corpus (some [("b.txt".data, "y".data), ("a.txt".data, "x".data)]) =
      load_corpus (some [("a.txt".data, "x".data), ("b.txt".data, "y".data)]) :=
  claim9_deterministic_build _ _ (by decide) (by decide)
